import Mathlib

/-!
Verification of the change-detection core of a marketplace product
monitor (src/monitor.py).  The Python functions are shallowly embedded
as Lean functions.  Effects are made explicit: the browser extraction
outcome of each retry attempt, the per-URL terminal fetch outcome, the
success of each Telegram send, the capture clock and the JSON codec are
all passed in as parameters, and the messages sent plus the committed
file contents are returned as data.  Python sets of fingerprints are
modelled as duplicate-free lists, with set insertion as a guarded
append and sorted() as an explicit code-point insertion sort, so that
every definition evaluates inside the kernel.
-/

namespace BsMonitor

/-- Configuration constants of the source (monitor.py, config block). -/
def CHECK_EVERY_SECONDS : Nat := 5 * 60

/-- Page/navigation timeout in milliseconds (monitor.py line 27). -/
def PAGE_TIMEOUT : Nat := 90000

/-- Maximum extraction attempts per page (monitor.py line 28). -/
def MAX_RETRIES : Nat := 3

/-- Seconds slept between retry attempts (monitor.py line 29). -/
def RETRY_DELAY : Nat := 5

/-- Whitespace class of the regex \s+ and of str.strip used by fmt,
modelled on its ASCII part (space, tab, newline, carriage return,
vertical tab, form feed). -/
def pySpace (c : Char) : Bool :=
  c == ' ' || c == '\t' || c == '\n' || c == '\r' || c == '\x0b' || c == '\x0c'

/-- The substitution pass of re.sub(r"\s+", " ", text): every maximal
run of whitespace becomes one ASCII space.  The flag records whether the
previous character belonged to a whitespace run already replaced. -/
def collapse : Bool → List Char → List Char
  | _, [] => []
  | prev, c :: cs =>
    if pySpace c then
      if prev then collapse true cs else ' ' :: collapse true cs
    else
      c :: collapse false cs

/-- str.strip(): drop leading and trailing whitespace characters. -/
def stripChars (l : List Char) : List Char :=
  ((l.dropWhile pySpace).reverse.dropWhile pySpace).reverse

/-- fmt (monitor.py lines 46-47): collapse whitespace runs to a single
space, then strip. -/
def fmt (s : String) : String :=
  ⟨stripChars (collapse false s.data)⟩

/-- Code-point lexicographic comparison of character lists, the order
Python uses to compare strings. -/
def charsLe : List Char → List Char → Bool
  | [], _ => true
  | _ :: _, [] => false
  | a :: as, b :: bs =>
    if a.toNat < b.toNat then true
    else if b.toNat < a.toNat then false
    else charsLe as bs

/-- Python string comparison, on the underlying character lists. -/
def strLe (a b : String) : Bool :=
  charsLe a.data b.data

/-- Insertion into a sorted fingerprint list. -/
def insertStr (a : String) : List String → List String
  | [] => [a]
  | b :: bs => if strLe a b then a :: b :: bs else b :: insertStr a bs

/-- sorted() on the committed fingerprint collection (monitor.py line
115), as an insertion sort under the Python string order. -/
def sortStr : List String → List String
  | [] => []
  | a :: as => insertStr a (sortStr as)

/-- Python set.add on the fingerprint accumulator: append the key only
when it is not yet present, keeping the list duplicate-free. -/
def addKey (l : List String) (k : String) : List String :=
  if k ∈ l then l else l ++ [k]

/-- One product row as built in the _fetch_once dict (monitor.py
lines 67-75). -/
structure Product where
  key : String
  name : String
  price : String
  available : String
  ts : String
deriving DecidableEq

/-- Extraction of one table row (monitor.py lines 61-75): rows with
fewer than five cells are skipped; name is cell 0, price cell 2,
availability cell 4, each normalized by fmt; the key is name|price.
The capture timestamp is a parameter standing for datetime.now. -/
def extractRow (ts : String) (cells : List String) : Option Product :=
  if cells.length < 5 then none
  else
    let name := fmt (cells.getD 0 "")
    let price := fmt (cells.getD 2 "")
    let avail := fmt (cells.getD 4 "")
    some ⟨name ++ "|" ++ price, name, price, avail, ts⟩

/-- The product list built by one successful _fetch_once call over the
rendered rows of the page. -/
def extractProducts (ts : String) (rows : List (List String)) : List Product :=
  rows.filterMap (extractRow ts)

/-- Outcome of one _fetch_once attempt: a rendered page (its rows), a
PlaywrightTimeout, or any non-timeout exception. -/
inductive Outcome where
  | success (rows : List (List String))
  | timeout
  | failure
deriving DecidableEq

/-- Terminal result of fetch_products: a product list, a propagated
PlaywrightTimeout, a propagated non-timeout exception, or the implicit
None of a loop that never ran (only possible with zero attempts). -/
inductive FetchResult where
  | ok (ps : List Product)
  | timedOut
  | failed
  | noAttempt
deriving DecidableEq

/-- Trace of one fetch_products call: its result, how many _fetch_once
attempts were made, and how many retry-delay sleeps happened. -/
structure RetryTrace where
  result : FetchResult
  attempts : Nat
  sleeps : Nat
deriving DecidableEq

/-- The retry loop body of fetch_products (monitor.py lines 83-89) with
attempt counter i and r attempts remaining: try _fetch_once; on timeout
re-raise if this was the last attempt, otherwise sleep and retry; on a
non-timeout exception propagate at once. -/
def fetchAux (ts : String) (eff : Nat → Outcome) : Nat → Nat → RetryTrace
  | _, 0 => ⟨.noAttempt, 0, 0⟩
  | i, r + 1 =>
    match eff i with
    | .success rows => ⟨.ok (extractProducts ts rows), 1, 0⟩
    | .failure => ⟨.failed, 1, 0⟩
    | .timeout =>
      if r = 0 then ⟨.timedOut, 1, 0⟩
      else
        let t := fetchAux ts eff (i + 1) r
        ⟨t.result, t.attempts + 1, t.sleeps + 1⟩

/-- fetch_products (monitor.py lines 81-89): run the attempt loop for
attempt = 1 .. maxAttempts, where eff gives the outcome of each
1-indexed attempt. -/
def fetch_products (ts : String) (eff : Nat → Outcome) (maxAttempts : Nat) : RetryTrace :=
  fetchAux ts eff 1 maxAttempts

/-- Terminal per-URL fetch outcome as seen by check_once at the
fetch_products call boundary (monitor.py lines 101-105). -/
inductive UrlFetch where
  | ok (ps : List Product)
  | timeout
  | err
deriving DecidableEq

/-- A notification recorded structurally: either the per-URL timeout
warning (monitor.py line 104) or the batched new-product message for one
URL (monitor.py lines 108-113). -/
inductive Msg where
  | warn (url : String)
  | batch (url : String) (added : List Product)
deriving DecidableEq

/-- The exact text handed to notify for each recorded message
(monitor.py lines 104 and 109-113). -/
def renderMsg : Msg → String
  | .warn url => "⚠️ Таймаут при загрузке " ++ url
  | .batch url ps =>
    String.intercalate "\n"
      (("<b>Новый товар у продавца</b>\n" ++ url) ::
        ps.map (fun p =>
          "• " ++ p.name ++ " — " ++ p.price ++ " (доступно: " ++ p.available ++ ")"))

/-- Exceptions that escape check_once: a JSON load/parse failure of the
state file, a non-timeout fetch exception, or a failed Telegram send. -/
inductive Err where
  | persistence
  | fetchOther
  | notifyFail
deriving DecidableEq

/-- In-flight state of the URL loop of check_once: messages sent so
far, the new_seen accumulator, and how many notify calls were made. -/
structure CycleState where
  sent : List Msg
  newSeen : List String
  nCalls : Nat
deriving DecidableEq

/-- The URL loop of check_once (monitor.py lines 100-113).  seen is the
snapshot loaded at cycle start; fetch gives the terminal fetch
outcome of each URL; notifyOk tells whether the k-th notify call succeeds (a failed
send raises and aborts the cycle). -/
def processUrls (seen : List String) (fetch : String → UrlFetch)
    (notifyOk : Nat → Bool) : List String → CycleState → Except Err CycleState
  | [], st => .ok st
  | url :: rest, st =>
    match fetch url with
    | .err => .error .fetchOther
    | .timeout =>
      if notifyOk st.nCalls then
        processUrls seen fetch notifyOk rest
          ⟨st.sent ++ [.warn url], st.newSeen, st.nCalls + 1⟩
      else .error .notifyFail
    | .ok products =>
      let added := products.filter fun p => decide (p.key ∉ seen)
      if added.isEmpty then
        processUrls seen fetch notifyOk rest st
      else
        if notifyOk st.nCalls then
          processUrls seen fetch notifyOk rest
            ⟨st.sent ++ [.batch url added],
              (added.map Product.key).foldl addKey st.newSeen, st.nCalls + 1⟩
        else .error .notifyFail

/-- Loading the seen set (monitor.py line 97): empty when the state file
is absent; otherwise json.loads of its contents (modelled by the parse
parameter, failing with None) turned into a set — modelled by
deduplication. -/
def loadSeen (parse : String → Option (List String)) :
    Option String → Except Err (List String)
  | none => .ok []
  | some s =>
    match parse s with
    | none => .error .persistence
    | some l => .ok l.dedup

/-- Observable outcome of one completed cycle: the notifications sent,
in order, and the sorted fingerprint list written to the state file. -/
structure CycleOut where
  sent : List Msg
  saved : List String
deriving DecidableEq

/-- check_once (monitor.py lines 96-115): load the seen snapshot, run
the URL loop starting from new_seen = set(seen), then write the sorted
accumulator.  Any raised exception aborts the cycle before the write. -/
def check_once (parse : String → Option (List String)) (file : Option String)
    (urls : List String) (fetch : String → UrlFetch) (notifyOk : Nat → Bool) :
    Except Err CycleOut :=
  match loadSeen parse file with
  | .error e => .error e
  | .ok seen =>
    match processUrls seen fetch notifyOk urls ⟨[], seen, 0⟩ with
    | .error e => .error e
    | .ok st => .ok ⟨st.sent, sortStr st.newSeen⟩

/-- The fingerprints carried by the batched notifications of a message
trace, in send order (the keys check_once adds to new_seen as it sends
them). -/
def notifiedKeys : List Msg → List String
  | [] => []
  | .warn _ :: rest => notifiedKeys rest
  | .batch _ ps :: rest => ps.map Product.key ++ notifiedKeys rest

/-! ### A concrete JSON codec for lists of strings

json.dumps(sorted(new_seen)) and json.loads of the state file only ever
meet JSON arrays of strings; the codec below models that fragment (with
ensure_ascii escaping restricted to the basic multilingual plane).  The
cycle model takes the parse function as a parameter, and these concrete
functions instantiate it in witnesses and counterexamples. -/

/-- Lowercase hexadecimal digit. -/
def hexDigit (n : Nat) : Char :=
  if n < 10 then Char.ofNat (48 + n) else Char.ofNat (87 + n)

/-- Four-digit lowercase hexadecimal rendering of a BMP code point. -/
def hex4 (n : Nat) : String :=
  ⟨[hexDigit (n / 4096 % 16), hexDigit (n / 256 % 16), hexDigit (n / 16 % 16),
    hexDigit (n % 16)]⟩

/-- json.dumps escaping of one character (default ensure_ascii mode,
BMP fragment). -/
def jescapeChar (c : Char) : String :=
  if c = '"' then "\\\""
  else if c = '\\' then "\\\\"
  else if c = '\n' then "\\n"
  else if c = '\t' then "\\t"
  else if c = '\r' then "\\r"
  else if c = '\x08' then "\\b"
  else if c = '\x0c' then "\\f"
  else if c.toNat < 32 || 128 ≤ c.toNat then "\\u" ++ hex4 c.toNat
  else String.singleton c

/-- json.dumps of a list of strings (default separators). -/
def jdumps (l : List String) : String :=
  "[" ++ String.intercalate ", "
    (l.map fun s => "\"" ++ String.join (s.data.map jescapeChar) ++ "\"") ++ "]"

/-- JSON insignificant whitespace. -/
def jWs (c : Char) : Bool :=
  c == ' ' || c == '\t' || c == '\n' || c == '\r'

/-- Value of one hexadecimal digit character. -/
def hexVal (c : Char) : Option Nat :=
  if '0' ≤ c ∧ c ≤ '9' then some (c.toNat - 48)
  else if 'a' ≤ c ∧ c ≤ 'f' then some (c.toNat - 87)
  else if 'A' ≤ c ∧ c ≤ 'F' then some (c.toNat - 55)
  else none

/-- Parse the remainder of a JSON string literal (after the opening
quote), returning its characters and the unconsumed input. -/
def parseJStr : List Char → Option (List Char × List Char)
  | [] => none
  | '"' :: cs => some ([], cs)
  | '\\' :: 'n' :: cs => (parseJStr cs).map fun p => ('\n' :: p.1, p.2)
  | '\\' :: 't' :: cs => (parseJStr cs).map fun p => ('\t' :: p.1, p.2)
  | '\\' :: 'r' :: cs => (parseJStr cs).map fun p => ('\r' :: p.1, p.2)
  | '\\' :: 'b' :: cs => (parseJStr cs).map fun p => ('\x08' :: p.1, p.2)
  | '\\' :: 'f' :: cs => (parseJStr cs).map fun p => ('\x0c' :: p.1, p.2)
  | '\\' :: '/' :: cs => (parseJStr cs).map fun p => ('/' :: p.1, p.2)
  | '\\' :: '"' :: cs => (parseJStr cs).map fun p => ('"' :: p.1, p.2)
  | '\\' :: '\\' :: cs => (parseJStr cs).map fun p => ('\\' :: p.1, p.2)
  | '\\' :: 'u' :: a :: b :: c :: d :: cs =>
    match hexVal a, hexVal b, hexVal c, hexVal d with
    | some x, some y, some z, some w =>
      (parseJStr cs).map fun p =>
        (Char.ofNat (4096 * x + 256 * y + 16 * z + w) :: p.1, p.2)
    | _, _, _, _ => none
  | '\\' :: _ => none
  | c :: cs => (parseJStr cs).map fun p => (c :: p.1, p.2)

/-- Parse the items of a nonempty JSON string array, fuel-bounded. -/
def jitems : Nat → List Char → Option (List String)
  | 0, _ => none
  | fuel + 1, cs =>
    match cs.dropWhile jWs with
    | '"' :: cs1 =>
      match parseJStr cs1 with
      | none => none
      | some (s, rest) =>
        match rest.dropWhile jWs with
        | ',' :: rest1 =>
          match jitems fuel rest1 with
          | none => none
          | some l => some (⟨s⟩ :: l)
        | ']' :: rest1 =>
          if (rest1.dropWhile jWs).isEmpty then some [⟨s⟩] else none
        | _ => none
    | _ => none

/-- json.loads restricted to JSON arrays of strings; anything else is a
parse failure. -/
def jparse (s : String) : Option (List String) :=
  match s.data.dropWhile jWs with
  | '[' :: cs =>
    match cs.dropWhile jWs with
    | ']' :: rest => if (rest.dropWhile jWs).isEmpty then some [] else none
    | _ => jitems (s.length + 1) cs
  | _ => none

/-! ### Retrying Fetcher: claim C3 -/

/-- The retry loop makes at most as many attempts as it has left. -/
lemma fetchAux_attempts_le (ts : String) (eff : Nat → Outcome) :
    ∀ r i, (fetchAux ts eff i r).attempts ≤ r := by
  intro r
  induction r with
  | zero => intro i; simp [fetchAux]
  | succ r ih =>
    intro i
    simp only [fetchAux]
    cases eff i with
    | success rows => simp
    | failure => simp
    | timeout =>
      by_cases hr : r = 0
      · simp [hr]
      · simpa [hr] using Nat.succ_le_succ (ih (i + 1))

/-- Under an always-timing-out extractor the loop runs all r remaining
attempts with r - 1 sleeps and ends in the timeout. -/
lemma fetchAux_all_timeout (ts : String) (eff : Nat → Outcome)
    (h : ∀ i, eff i = .timeout) :
    ∀ r i, 1 ≤ r → fetchAux ts eff i r = ⟨.timedOut, r, r - 1⟩ := by
  intro r
  induction r with
  | zero => intro i hi; omega
  | succ r ih =>
    intro i _
    simp only [fetchAux, h i]
    by_cases hr : r = 0
    · simp [hr]
    · have := ih (i + 1) (by omega)
      simp [hr, this]
      omega

/-- Claim C3: for every maxAttempts at least 1, fetch_products makes at
most maxAttempts sequential attempts; with an extractor that times out
on every attempt it makes exactly maxAttempts attempts with exactly
maxAttempts minus one intervening sleeps and then propagates the
timeout; a successful first attempt returns its products after one
attempt and no sleep; and a non-timeout failure propagates immediately
with one attempt and no retry. -/
theorem c3_retry_bound (ts : String) (eff : Nat → Outcome) (m : Nat) (hm : 1 ≤ m) :
    (fetch_products ts eff m).attempts ≤ m
    ∧ ((∀ i, eff i = .timeout) → fetch_products ts eff m = ⟨.timedOut, m, m - 1⟩)
    ∧ (∀ rows, eff 1 = .success rows →
        fetch_products ts eff m = ⟨.ok (extractProducts ts rows), 1, 0⟩)
    ∧ (eff 1 = .failure → fetch_products ts eff m = ⟨.failed, 1, 0⟩) := by
  obtain ⟨k, rfl⟩ : ∃ k, m = k + 1 := ⟨m - 1, by omega⟩
  refine ⟨fetchAux_attempts_le ts eff (k + 1) 1,
    fun h => fetchAux_all_timeout ts eff h (k + 1) 1 hm, ?_, ?_⟩
  · intro rows h
    simp [fetch_products, fetchAux, h]
  · intro h
    simp [fetch_products, fetchAux, h]

/-- Witness for C3 at the configured MAX_RETRIES = 3 and an extractor
that times out on every attempt: exactly 3 attempts, 2 sleeps, and the
propagated timeout. -/
theorem c3_retry_bound_witness :
    fetch_products "" (fun _ => .timeout) MAX_RETRIES = ⟨.timedOut, 3, 2⟩ :=
  (c3_retry_bound "" (fun _ => .timeout) MAX_RETRIES (by decide)).2.1 (fun _ => rfl)

/-! ### Fingerprints: claim C6 -/

/-- Claim C6: the fingerprint of an extracted product is its normalized
name, a bar, and its normalized price; two extracted records with equal
normalized name and price share the fingerprint whatever their
availability or timestamp; and a URL all of whose products carry
already-seen fingerprints triggers no notification and leaves the
committed set at the loaded snapshot. -/
theorem c6_fingerprint (ts ts2 : String) (cells cells2 : List String) (p q : Product)
    (hp : extractRow ts cells = some p) (hq : extractRow ts2 cells2 = some q)
    (hn : p.name = q.name) (hpr : p.price = q.price)
    (parse : String → Option (List String)) (file : Option String) (seen : List String)
    (hload : loadSeen parse file = .ok seen)
    (u : String) (ps : List Product) (fetch : String → UrlFetch) (nok : Nat → Bool)
    (hf : fetch u = .ok ps) (hall : ∀ r ∈ ps, r.key ∈ seen) :
    p.key = p.name ++ "|" ++ p.price
    ∧ p.key = q.key
    ∧ check_once parse file [u] fetch nok = .ok ⟨[], sortStr seen⟩ := by
  simp only [extractRow] at hp hq
  split at hp
  · exact absurd hp (by simp)
  · split at hq
    · exact absurd hq (by simp)
    · obtain rfl := (Option.some_inj.mp hp).symm
      obtain rfl := (Option.some_inj.mp hq).symm
      simp only at hn hpr
      refine ⟨rfl, ?_, ?_⟩
      · show fmt (cells.getD 0 "") ++ "|" ++ fmt (cells.getD 2 "")
          = fmt (cells2.getD 0 "") ++ "|" ++ fmt (cells2.getD 2 "")
        rw [hn, hpr]
      · have hfil : ps.filter (fun r => decide (r.key ∉ seen)) = [] := by
          simp only [List.filter_eq_nil_iff]
          intro r hr
          simp [hall r hr]
        simp only [check_once, hload, processUrls, hf]
        rw [hfil]
        simp [processUrls]

/-- Witness for C6: two rows equal in name and price cells but with a
different availability cell produce the same fingerprint, and a cycle
whose only product is already seen sends nothing. -/
theorem c6_fingerprint_witness :
    (⟨"a|1 €", "a", "1 €", "in stock", "t1"⟩ : Product).key = "a" ++ "|" ++ "1 €"
    ∧ (⟨"a|1 €", "a", "1 €", "in stock", "t1"⟩ : Product).key
        = (⟨"a|1 €", "a", "1 €", "sold out", "t2"⟩ : Product).key
    ∧ check_once jparse (some "[\"a|1 \\u20ac\"]") ["u"]
        (fun _ => .ok [⟨"a|1 €", "a", "1 €", "in stock", "t1"⟩]) (fun _ => true)
        = .ok ⟨[], sortStr ["a|1 €"]⟩ := by
  have h := c6_fingerprint "t1" "t2" ["a", "u1", "1 €", "v1", "in stock"]
      ["a", "u2", "1 €", "v2", "sold out"]
      ⟨"a|1 €", "a", "1 €", "in stock", "t1"⟩ ⟨"a|1 €", "a", "1 €", "sold out", "t2"⟩
      (by decide) (by decide) rfl rfl jparse (some "[\"a|1 \\u20ac\"]")
      ["a|1 €"] rfl "u"
      [⟨"a|1 €", "a", "1 €", "in stock", "t1"⟩]
      (fun _ => .ok [⟨"a|1 €", "a", "1 €", "in stock", "t1"⟩]) (fun _ => true) rfl
      (by decide)
  exact ⟨h.1, h.2.1, h.2.2⟩

/-! ### Snapshot diffing: claim C2 -/

/-- Claim C2: added products are diffed against the snapshot loaded at
cycle start, not against the running accumulator, so two URLs listing a
product with the same unseen fingerprint both report it in their own
batched notification within one cycle. -/
theorem c2_snapshot (parse : String → Option (List String)) (file : Option String)
    (seen : List String) (hload : loadSeen parse file = .ok seen)
    (u1 u2 : String) (p q : Product) (fetch : String → UrlFetch)
    (hp : p.key ∉ seen) (hq : q.key = p.key)
    (h1 : fetch u1 = .ok [p]) (h2 : fetch u2 = .ok [q]) :
    check_once parse file [u1, u2] fetch (fun _ => true)
      = .ok ⟨[.batch u1 [p], .batch u2 [q]], sortStr (seen ++ [p.key])⟩ := by
  have e1 : [p].filter (fun r => decide (r.key ∉ seen)) = [p] := by simp [hp]
  have e2 : [q].filter (fun r => decide (r.key ∉ seen)) = [q] := by simp [hq, hp]
  have a1 : addKey seen p.key = seen ++ [p.key] := by simp [addKey, hp]
  have a2 : addKey (seen ++ [p.key]) q.key = seen ++ [p.key] := by simp [addKey, hq]
  simp only [check_once, hload, processUrls, h1, h2]
  rw [e1, e2]
  simp [a1, a2]

/-- Witness for C2: the same unseen product listed by two URLs is
batched once per URL in the same cycle. -/
theorem c2_snapshot_witness :
    check_once jparse none ["u1", "u2"]
      (fun u => if u = "u1" then .ok [⟨"a|1", "a", "1", "x", "t"⟩]
                else .ok [⟨"a|1", "a", "1", "y", "t"⟩]) (fun _ => true)
      = .ok ⟨[.batch "u1" [⟨"a|1", "a", "1", "x", "t"⟩],
              .batch "u2" [⟨"a|1", "a", "1", "y", "t"⟩]], ["a|1"]⟩ :=
  c2_snapshot jparse none [] rfl "u1" "u2" ⟨"a|1", "a", "1", "x", "t"⟩
    ⟨"a|1", "a", "1", "y", "t"⟩ _ (by simp) rfl (by decide) (by decide)

/-! ### Notification failure: claim C1 -/

/-- Counterexample for C1: with a single URL whose page holds one
unseen product and a Telegram send that fails, check_once propagates
the send failure and the state file is never written, so the cycle does
not commit the updated seen set. -/
theorem c1_counterexample :
    check_once jparse none ["u"] (fun _ => .ok [⟨"a|1", "a", "1", "x", "t"⟩])
      (fun _ => false) = .error .notifyFail := by
  rfl

/-- Claim C1 as amended: a notification-send failure is not swallowed;
it propagates out of check_once, aborting the cycle before the final
save, so the accumulated fingerprints of that cycle are discarded
rather than committed. -/
theorem c1_amended (parse : String → Option (List String)) (file : Option String)
    (seen : List String) (hload : loadSeen parse file = .ok seen)
    (u : String) (rest : List String) (ps : List Product) (fetch : String → UrlFetch)
    (hf : fetch u = .ok ps) (nok : Nat → Bool) (h0 : nok 0 = false)
    (hne : ps.filter (fun r => decide (r.key ∉ seen)) ≠ []) :
    check_once parse file (u :: rest) fetch nok = .error .notifyFail := by
  rcases hfil : ps.filter (fun r => decide (r.key ∉ seen)) with _ | ⟨a, l⟩
  · exact absurd hfil hne
  · simp only [check_once, hload, processUrls, hf]
    rw [hfil]
    simp [h0]

/-- Witness for C1 as amended, at a concrete one-URL cycle with one
unseen product and an always-failing sink. -/
theorem c1_amended_witness :
    check_once jparse none ["v"] (fun _ => .ok [⟨"b|2", "b", "2", "y", "t"⟩])
      (fun _ => false) = .error .notifyFail :=
  c1_amended jparse none [] rfl "v" [] [⟨"b|2", "b", "2", "y", "t"⟩]
    (fun _ => .ok [⟨"b|2", "b", "2", "y", "t"⟩]) rfl (fun _ => false) rfl (by simp)

/-! ### Dedup store loading: claim C5 -/

/-- Counterexample for C5: the state file may exist with contents that
parse to an empty collection (json.dumps of an empty set writes
exactly this), and loading then also yields the empty set, so an empty
result does not imply that no state file existed. -/
theorem c5_counterexample :
    loadSeen jparse (some "[]") = .ok [] := by
  rfl

/-- Claim C5 as amended: loading returns the empty set when no state
file exists; when the file exists but fails to parse, the failure
propagates as the persistence error and aborts the cycle before any
fetching or notifying — it is never converted into an empty seen set. -/
theorem c5_amended (parse : String → Option (List String)) :
    loadSeen parse none = .ok []
    ∧ ∀ s, parse s = none →
        loadSeen parse (some s) = .error .persistence
        ∧ (∀ S, loadSeen parse (some s) ≠ .ok S)
        ∧ ∀ urls fetch nok, check_once parse (some s) urls fetch nok = .error .persistence := by
  refine ⟨rfl, fun s hs => ⟨?_, ?_, ?_⟩⟩
  · simp [loadSeen, hs]
  · intro S
    simp [loadSeen, hs]
  · intro urls fetch nok
    simp [check_once, loadSeen, hs]

/-- Witness for C5 as amended: a corrupt state file makes the load and
the whole cycle fail with the persistence error. -/
theorem c5_amended_witness :
    loadSeen jparse (some "corrupt") = .error .persistence
    ∧ check_once jparse (some "corrupt") ["u"] (fun _ => .ok []) (fun _ => true)
        = .error .persistence :=
  ⟨((c5_amended jparse).2 "corrupt" rfl).1,
   ((c5_amended jparse).2 "corrupt" rfl).2.2 ["u"] (fun _ => .ok []) (fun _ => true)⟩

/-! ### Elementary facts about the sort and the set model -/

lemma length_insertStr (a : String) : ∀ l, (insertStr a l).length = l.length + 1 := by
  intro l
  induction l with
  | nil => rfl
  | cons b bs ih =>
    simp only [insertStr]
    by_cases h : strLe a b
    · simp [h]
    · simp [h, ih]

lemma length_sortStr : ∀ l, (sortStr l).length = l.length := by
  intro l
  induction l with
  | nil => rfl
  | cons a as ih => simp [sortStr, length_insertStr, ih]

lemma mem_insertStr (x a : String) : ∀ l, x ∈ insertStr a l ↔ x = a ∨ x ∈ l := by
  intro l
  induction l with
  | nil => simp [insertStr]
  | cons b bs ih =>
    simp only [insertStr]
    by_cases h : strLe a b
    · simp [h]
    · simp only [h, if_neg, Bool.false_eq_true, if_false, List.mem_cons, ih]
      tauto

lemma mem_sortStr (x : String) : ∀ l, x ∈ sortStr l ↔ x ∈ l := by
  intro l
  induction l with
  | nil => simp [sortStr]
  | cons a as ih => simp [sortStr, mem_insertStr, ih]

lemma perm_insertStr (a : String) : ∀ l, List.Perm (insertStr a l) (a :: l) := by
  intro l
  induction l with
  | nil => simp [insertStr]
  | cons b bs ih =>
    simp only [insertStr]
    by_cases h : strLe a b
    · simp [h]
    · rw [if_neg h]
      exact (ih.cons b).trans (List.Perm.swap a b bs)

lemma perm_sortStr : ∀ l, List.Perm (sortStr l) l := by
  intro l
  induction l with
  | nil => simp [sortStr]
  | cons a as ih => exact (perm_insertStr a (sortStr as)).trans (ih.cons a)

/-- Totality of the code-point order. -/
lemma charsLe_total : ∀ as bs, charsLe as bs = true ∨ charsLe bs as = true := by
  intro as
  induction as with
  | nil => intro bs; left; rfl
  | cons a as ih =>
    intro bs
    cases bs with
    | nil => right; rfl
    | cons b bs =>
      simp only [charsLe]
      rcases Nat.lt_trichotomy a.toNat b.toNat with h | h | h
      · left; simp [h]
      · have h1 : ¬a.toNat < b.toNat := by omega
        have h2 : ¬b.toNat < a.toNat := by omega
        simp only [h1, h2, if_false]
        exact ih bs
      · right; simp [h]

lemma strLe_total (a b : String) : strLe a b = true ∨ strLe b a = true :=
  charsLe_total a.data b.data

/-- Transitivity of the code-point order. -/
lemma charsLe_trans : ∀ as bs cs, charsLe as bs = true → charsLe bs cs = true →
    charsLe as cs = true := by
  intro as
  induction as with
  | nil => intro bs cs _ _; rfl
  | cons a as ih =>
    intro bs cs h1 h2
    cases bs with
    | nil => simp [charsLe] at h1
    | cons b bs =>
      cases cs with
      | nil => simp [charsLe] at h2
      | cons c cs =>
        simp only [charsLe] at h1 h2 ⊢
        by_cases hab : a.toNat < b.toNat
        · by_cases hbc : b.toNat < c.toNat
          · have : a.toNat < c.toNat := by omega
            simp [this]
          · by_cases hcb : c.toNat < b.toNat
            · simp only [hbc, if_false, hcb, if_pos] at h2
              simp at h2
            · have hbceq : b.toNat = c.toNat := by omega
              have : a.toNat < c.toNat := by omega
              simp [this]
        · by_cases hba : b.toNat < a.toNat
          · simp only [hab, if_false, hba, if_pos] at h1
            simp at h1
          · have habeq : a.toNat = b.toNat := by omega
            by_cases hbc : b.toNat < c.toNat
            · have : a.toNat < c.toNat := by omega
              simp [this]
            · by_cases hcb : c.toNat < b.toNat
              · simp only [hbc, if_false, hcb, if_pos] at h2
                simp at h2
              · have : ¬a.toNat < c.toNat := by omega
                have h3 : ¬c.toNat < a.toNat := by omega
                simp only [hab, hba, if_false] at h1
                simp only [hbc, hcb, if_false] at h2
                simp only [this, h3, if_false]
                exact ih bs cs h1 h2

lemma strLe_trans {a b c : String} (h1 : strLe a b = true) (h2 : strLe b c = true) :
    strLe a c = true :=
  charsLe_trans a.data b.data c.data h1 h2

/-- Sortedness under the Python string order. -/
def SortedS (l : List String) : Prop :=
  l.Pairwise (fun a b => strLe a b = true)

lemma sorted_insertStr (a : String) :
    ∀ l, SortedS l → SortedS (insertStr a l) := by
  intro l
  induction l with
  | nil => intro _; simp [insertStr, SortedS]
  | cons b bs ih =>
    intro hs
    rw [SortedS, List.pairwise_cons] at hs
    simp only [insertStr]
    by_cases h : strLe a b
    · rw [if_pos h, SortedS, List.pairwise_cons]
      refine ⟨?_, List.pairwise_cons.mpr hs⟩
      intro x hx
      rcases List.mem_cons.mp hx with rfl | hx
      · exact h
      · exact strLe_trans h (hs.1 x hx)
    · rw [if_neg h, SortedS, List.pairwise_cons]
      refine ⟨?_, ih hs.2⟩
      intro x hx
      rcases (mem_insertStr x a bs).mp hx with rfl | hx
      · rcases strLe_total x b with hxb | hbx
        · exact absurd hxb h
        · exact hbx
      · exact hs.1 x hx

lemma sorted_sortStr : ∀ l, SortedS (sortStr l) := by
  intro l
  induction l with
  | nil => simp [sortStr, SortedS]
  | cons a as ih => exact sorted_insertStr a (sortStr as) ih

lemma sortStr_eq_self : ∀ l, SortedS l → sortStr l = l := by
  intro l
  induction l with
  | nil => intro _; rfl
  | cons a as ih =>
    intro hs
    rw [SortedS, List.pairwise_cons] at hs
    simp only [sortStr, ih hs.2]
    cases as with
    | nil => rfl
    | cons b bs =>
      simp only [insertStr]
      rw [if_pos (hs.1 b (List.mem_cons_self b bs))]

lemma sortStr_idem (l : List String) : sortStr (sortStr l) = sortStr l :=
  sortStr_eq_self (sortStr l) (sorted_sortStr l)

lemma mem_addKey (x k : String) (l : List String) :
    x ∈ addKey l k ↔ x ∈ l ∨ x = k := by
  unfold addKey
  by_cases h : k ∈ l
  · simp only [h, if_pos]
    constructor
    · exact Or.inl
    · rintro (hx | rfl)
      · exact hx
      · exact h
  · simp [h]

lemma nodup_addKey (k : String) (l : List String) (h : l.Nodup) :
    (addKey l k).Nodup := by
  unfold addKey
  by_cases hk : k ∈ l
  · simpa [hk]
  · rw [if_neg hk]
    exact h.append (List.nodup_singleton k)
      (fun a ha hb => hk ((List.mem_singleton.mp hb) ▸ ha))

lemma mem_foldl_addKey (x : String) :
    ∀ (ks l : List String), x ∈ ks.foldl addKey l ↔ x ∈ l ∨ x ∈ ks := by
  intro ks
  induction ks with
  | nil => intro l; simp
  | cons k ks ih =>
    intro l
    simp only [List.foldl_cons, ih, mem_addKey, List.mem_cons]
    tauto

lemma nodup_foldl_addKey :
    ∀ (ks l : List String), l.Nodup → (ks.foldl addKey l).Nodup := by
  intro ks
  induction ks with
  | nil => intro l h; simpa
  | cons k ks ih =>
    intro l h
    exact ih (addKey l k) (nodup_addKey k l h)

lemma foldl_addKey_fresh :
    ∀ (ks l : List String), ks.Nodup → (∀ k ∈ ks, k ∉ l) →
      ks.foldl addKey l = l ++ ks := by
  intro ks
  induction ks with
  | nil => intro l _ _; simp
  | cons k ks ih =>
    intro l hnd hdisj
    have hk : k ∉ l := hdisj k (List.mem_cons_self k ks)
    have h1 : addKey l k = l ++ [k] := by simp [addKey, hk]
    rw [List.foldl_cons, h1, ih (l ++ [k]) (List.nodup_cons.mp hnd).2]
    · simp
    · intro x hx
      simp only [List.mem_append, List.mem_singleton]
      rintro (hxl | rfl)
      · exact hdisj x (List.mem_cons_of_mem _ hx) hxl
      · exact (List.nodup_cons.mp hnd).1 hx

/-! ### First run: claim C7 -/

/-- Counterexample for C7: a first-run page yielding N = 2 products
that happen to share a fingerprint (equal name and price cells) sends
one batched notification listing both, but the state file then holds
only one fingerprint, not N. -/
theorem c7_counterexample :
    (extractProducts "t" [["a", "x", "1", "y", "z"], ["a", "x", "1", "y", "z"]]).length = 2
    ∧ check_once jparse none ["u"]
        (fun _ => .ok (extractProducts "t" [["a", "x", "1", "y", "z"], ["a", "x", "1", "y", "z"]]))
        (fun _ => true)
      = .ok ⟨[.batch "u" (extractProducts "t"
            [["a", "x", "1", "y", "z"], ["a", "x", "1", "y", "z"]])], ["a|1"]⟩
    ∧ (["a|1"] : List String).length = 1 :=
  ⟨rfl, rfl, rfl⟩

/-- Claim C7 as amended: on a first run (no state file) against a
single URL yielding a nonempty product list with pairwise distinct
fingerprints, exactly one batched notification listing all the products
is sent, and the committed state file holds exactly one fingerprint per
product. -/
theorem c7_first_run (parse : String → Option (List String)) (u : String)
    (ps : List Product) (fetch : String → UrlFetch) (hf : fetch u = .ok ps)
    (hne : ps ≠ []) (hnd : (ps.map Product.key).Nodup) :
    check_once parse none [u] fetch (fun _ => true)
      = .ok ⟨[.batch u ps], sortStr (ps.map Product.key)⟩
    ∧ (sortStr (ps.map Product.key)).length = ps.length := by
  have hfil : ps.filter (fun r => decide (r.key ∉ ([] : List String))) = ps := by
    apply List.filter_eq_self.mpr
    intro a _
    simp
  constructor
  · simp only [check_once, loadSeen, processUrls, hf]
    rw [hfil]
    rcases ps with _ | ⟨a, l⟩
    · exact absurd rfl hne
    · have hfold2 : List.foldl addKey (addKey [] a.key) (List.map Product.key l)
          = a.key :: List.map Product.key l := by
        have h0 := foldl_addKey_fresh (List.map Product.key (a :: l)) [] hnd (by simp)
        simpa using h0
      simp [processUrls, hfold2]
  · rw [length_sortStr, List.length_map]

/-- Witness for C7 as amended: two distinct products on a fresh first
run give one batch message with both and a two-fingerprint commit. -/
theorem c7_first_run_witness :
    check_once jparse none ["u"]
      (fun _ => .ok [⟨"a|1", "a", "1", "x", "t"⟩, ⟨"b|2", "b", "2", "y", "t"⟩])
      (fun _ => true)
      = .ok ⟨[.batch "u" [⟨"a|1", "a", "1", "x", "t"⟩, ⟨"b|2", "b", "2", "y", "t"⟩]],
             ["a|1", "b|2"]⟩
    ∧ (["a|1", "b|2"] : List String).length
      = ([⟨"a|1", "a", "1", "x", "t"⟩, ⟨"b|2", "b", "2", "y", "t"⟩] : List Product).length :=
  c7_first_run jparse "u" [⟨"a|1", "a", "1", "x", "t"⟩, ⟨"b|2", "b", "2", "y", "t"⟩]
    (fun _ => .ok [⟨"a|1", "a", "1", "x", "t"⟩, ⟨"b|2", "b", "2", "y", "t"⟩]) rfl
    (by decide) (by decide)

/-! ### Structural lemmas about the URL loop -/

/-- With an always-succeeding sink, running the loop from an arbitrary
starting state is the run from a fresh state with the already-sent
messages prepended and the call counter shifted. -/
lemma processUrls_allOk_shift (seen : List String) (fetch : String → UrlFetch) :
    ∀ (urls : List String) (ns : List String) (s0 : List Msg) (n : Nat),
      processUrls seen fetch (fun _ => true) urls ⟨s0, ns, n⟩ =
        (processUrls seen fetch (fun _ => true) urls ⟨[], ns, 0⟩).map
          (fun st => ⟨s0 ++ st.sent, st.newSeen, n + st.nCalls⟩) := by
  intro urls
  induction urls with
  | nil => intro ns s0 n; simp [processUrls, Except.map]
  | cons url rest ih =>
    intro ns s0 n
    cases hf : fetch url with
    | err => simp [processUrls, hf, Except.map]
    | timeout =>
      simp only [processUrls, hf, eq_self_iff_true, if_true]
      rw [ih ns (s0 ++ [Msg.warn url]) (n + 1), ih ns ([] ++ [Msg.warn url]) (0 + 1)]
      cases processUrls seen fetch (fun _ => true) rest ⟨[], ns, 0⟩ with
      | error e => simp [Except.map]
      | ok st => simp [Except.map, Nat.add_assoc]
    | ok products =>
      simp only [processUrls, hf, eq_self_iff_true, if_true]
      by_cases he : (products.filter fun p => decide (p.key ∉ seen)).isEmpty = true
      · rw [if_pos he, if_pos he]
        exact ih ns s0 n
      · rw [if_neg he, if_neg he]
        rw [ih ((List.map Product.key (products.filter fun p => decide (p.key ∉ seen))).foldl addKey ns)
              (s0 ++ [Msg.batch url (products.filter fun p => decide (p.key ∉ seen))]) (n + 1),
            ih ((List.map Product.key (products.filter fun p => decide (p.key ∉ seen))).foldl addKey ns)
              ([] ++ [Msg.batch url (products.filter fun p => decide (p.key ∉ seen))]) (0 + 1)]
        cases processUrls seen fetch (fun _ => true) rest
            ⟨[], (List.map Product.key (products.filter fun p => decide (p.key ∉ seen))).foldl addKey ns, 0⟩ with
        | error e => simp [Except.map]
        | ok st => simp [Except.map, Nat.add_assoc]

/-- With an always-succeeding sink, the loop cannot fail unless some
listed URL raises a non-timeout error. -/
lemma processUrls_allOk_isOk (seen : List String) (fetch : String → UrlFetch) :
    ∀ (urls : List String) (st : CycleState), (∀ u ∈ urls, fetch u ≠ .err) →
      ∃ st2, processUrls seen fetch (fun _ => true) urls st = .ok st2 := by
  intro urls
  induction urls with
  | nil => intro st _; exact ⟨st, rfl⟩
  | cons url rest ih =>
    intro st herr
    have hrest : ∀ u ∈ rest, fetch u ≠ .err := fun u hu => herr u (List.mem_cons_of_mem _ hu)
    cases hf : fetch url with
    | err => exact absurd hf (herr url (List.mem_cons_self url rest))
    | timeout =>
      obtain ⟨st2, h2⟩ := ih ⟨st.sent ++ [.warn url], st.newSeen, st.nCalls + 1⟩ hrest
      refine ⟨st2, ?_⟩
      simp only [processUrls, hf, eq_self_iff_true, if_true]
      exact h2
    | ok products =>
      by_cases he : (products.filter fun p => decide (p.key ∉ seen)).isEmpty = true
      · obtain ⟨st2, h2⟩ := ih st hrest
        refine ⟨st2, ?_⟩
        simp only [processUrls, hf]
        rw [if_pos he]
        exact h2
      · obtain ⟨st2, h2⟩ := ih
          ⟨st.sent ++ [.batch url (products.filter fun p => decide (p.key ∉ seen))],
            (List.map Product.key (products.filter fun p => decide (p.key ∉ seen))).foldl addKey st.newSeen,
            st.nCalls + 1⟩ hrest
        refine ⟨st2, ?_⟩
        simp only [processUrls, hf, eq_self_iff_true, if_true]
        rw [if_neg he]
        exact h2

/-- Every warning in the final trace either was there at the start or
names one of the processed URLs. -/
lemma processUrls_warn_mem (seen : List String) (fetch : String → UrlFetch)
    (nok : Nat → Bool) :
    ∀ (urls : List String) (st st2 : CycleState),
      processUrls seen fetch nok urls st = .ok st2 →
      ∀ u, Msg.warn u ∈ st2.sent → Msg.warn u ∈ st.sent ∨ u ∈ urls := by
  intro urls
  induction urls with
  | nil =>
    intro st st2 h u hu
    cases h
    exact Or.inl hu
  | cons url rest ih =>
    intro st st2 h u hu
    cases hf : fetch url with
    | err => simp only [processUrls, hf] at h; exact Except.noConfusion h
    | timeout =>
      simp only [processUrls, hf] at h
      by_cases hn : nok st.nCalls = true
      · rw [if_pos hn] at h
        rcases ih _ _ h u hu with hin | hin
        · rcases List.mem_append.mp hin with hin | hin
          · exact Or.inl hin
          · have : u = url := by simpa using hin
            exact Or.inr (this ▸ List.mem_cons_self _ _)
        · exact Or.inr (List.mem_cons_of_mem _ hin)
      · rw [if_neg hn] at h; cases h
    | ok products =>
      simp only [processUrls, hf] at h
      by_cases he : (products.filter fun p => decide (p.key ∉ seen)).isEmpty = true
      · rw [if_pos he] at h
        rcases ih _ _ h u hu with hin | hin
        · exact Or.inl hin
        · exact Or.inr (List.mem_cons_of_mem _ hin)
      · rw [if_neg he] at h
        by_cases hn : nok st.nCalls = true
        · rw [if_pos hn] at h
          rcases ih _ _ h u hu with hin | hin
          · rcases List.mem_append.mp hin with hin | hin
            · exact Or.inl hin
            · simp at hin
          · exact Or.inr (List.mem_cons_of_mem _ hin)
        · rw [if_neg hn] at h; cases h

/-- Loop invariant: the final trace extends the initial one by a tail,
and the accumulator is the initial one with exactly the fingerprints
batched in that tail set-added in order. -/
lemma processUrls_newSeen (seen : List String) (fetch : String → UrlFetch)
    (nok : Nat → Bool) :
    ∀ (urls : List String) (st st2 : CycleState),
      processUrls seen fetch nok urls st = .ok st2 →
      ∃ tail, st2.sent = st.sent ++ tail
        ∧ st2.newSeen = (notifiedKeys tail).foldl addKey st.newSeen := by
  intro urls
  induction urls with
  | nil =>
    intro st st2 h
    cases h
    exact ⟨[], by simp [notifiedKeys]⟩
  | cons url rest ih =>
    intro st st2 h
    cases hf : fetch url with
    | err => simp only [processUrls, hf] at h; exact Except.noConfusion h
    | timeout =>
      simp only [processUrls, hf] at h
      by_cases hn : nok st.nCalls = true
      · rw [if_pos hn] at h
        obtain ⟨tail, hs, hns⟩ := ih _ _ h
        refine ⟨.warn url :: tail, ?_, ?_⟩
        · simp only at hs; rw [hs]; simp
        · simp only at hns; rw [hns]; simp [notifiedKeys]
      · rw [if_neg hn] at h; cases h
    | ok products =>
      simp only [processUrls, hf] at h
      by_cases he : (products.filter fun p => decide (p.key ∉ seen)).isEmpty = true
      · rw [if_pos he] at h
        exact ih _ _ h
      · rw [if_neg he] at h
        by_cases hn : nok st.nCalls = true
        · rw [if_pos hn] at h
          obtain ⟨tail, hs, hns⟩ := ih _ _ h
          refine ⟨.batch url (products.filter fun p => decide (p.key ∉ seen)) :: tail, ?_, ?_⟩
          · simp only at hs; rw [hs]; simp
          · simp only at hns; rw [hns]; simp [notifiedKeys, List.foldl_append]
        · rw [if_neg hn] at h; cases h

/-- The accumulator only ever grows during the loop. -/
lemma processUrls_newSeen_mono (seen : List String) (fetch : String → UrlFetch)
    (nok : Nat → Bool) (urls : List String) (st st2 : CycleState)
    (h : processUrls seen fetch nok urls st = .ok st2) :
    ∀ x ∈ st.newSeen, x ∈ st2.newSeen := by
  obtain ⟨tail, _, hns⟩ := processUrls_newSeen seen fetch nok urls st st2 h
  intro x hx
  rw [hns]
  exact (mem_foldl_addKey x _ _).mpr (Or.inl hx)

/-- Every fingerprint of a successfully fetched product ends up in the
final accumulator (either it was already seen or it was just added). -/
lemma processUrls_keys_mem (seen : List String) (fetch : String → UrlFetch)
    (nok : Nat → Bool) :
    ∀ (urls : List String) (st st2 : CycleState),
      processUrls seen fetch nok urls st = .ok st2 →
      (∀ x ∈ seen, x ∈ st.newSeen) →
      ∀ u ∈ urls, ∀ ps, fetch u = .ok ps → ∀ p ∈ ps, p.key ∈ st2.newSeen := by
  intro urls
  induction urls with
  | nil =>
    intro st st2 _ _ u hu
    simp at hu
  | cons url rest ih =>
    intro st st2 h hsub u hu ps hfu p hp
    cases hf : fetch url with
    | err => simp only [processUrls, hf] at h; exact Except.noConfusion h
    | timeout =>
      simp only [processUrls, hf] at h
      by_cases hn : nok st.nCalls = true
      · rw [if_pos hn] at h
        rcases List.mem_cons.mp hu with rfl | hu2
        · rw [hf] at hfu; cases hfu
        · exact ih _ _ h hsub u hu2 ps hfu p hp
      · rw [if_neg hn] at h; cases h
    | ok products =>
      simp only [processUrls, hf] at h
      by_cases he : (products.filter fun p => decide (p.key ∉ seen)).isEmpty = true
      · rw [if_pos he] at h
        rcases List.mem_cons.mp hu with rfl | hu2
        · rw [hf] at hfu
          obtain rfl : products = ps := by injection hfu
          have hkey : p.key ∈ seen := by
            by_contra hnk
            have : p ∈ products.filter fun r => decide (r.key ∉ seen) :=
              List.mem_filter.mpr ⟨hp, by simpa using hnk⟩
            rw [List.isEmpty_iff] at he
            rw [he] at this
            simp at this
          exact processUrls_newSeen_mono seen fetch nok rest _ _ h p.key (hsub p.key hkey)
        · exact ih _ _ h hsub u hu2 ps hfu p hp
      · rw [if_neg he] at h
        by_cases hn : nok st.nCalls = true
        · rw [if_pos hn] at h
          have hsub2 : ∀ x ∈ seen, x ∈
              (List.map Product.key (products.filter fun r => decide (r.key ∉ seen))).foldl
                addKey st.newSeen :=
            fun x hx => (mem_foldl_addKey x _ _).mpr (Or.inl (hsub x hx))
          rcases List.mem_cons.mp hu with rfl | hu2
          · rw [hf] at hfu
            obtain rfl : products = ps := by injection hfu
            by_cases hkey : p.key ∈ seen
            · exact processUrls_newSeen_mono seen fetch nok rest _ _ h p.key (hsub2 p.key hkey)
            · have hmem : p ∈ products.filter fun r => decide (r.key ∉ seen) :=
                List.mem_filter.mpr ⟨hp, by simpa using hkey⟩
              have : p.key ∈
                  (List.map Product.key (products.filter fun r => decide (r.key ∉ seen))).foldl
                    addKey st.newSeen :=
                (mem_foldl_addKey p.key _ _).mpr
                  (Or.inr (List.mem_map.mpr ⟨p, hmem, rfl⟩))
              exact processUrls_newSeen_mono seen fetch nok rest _ _ h p.key this
          · exact ih _ _ h hsub2 u hu2 ps hfu p hp
        · rw [if_neg hn] at h; cases h

/-- When every product of every URL is already in the snapshot, the
loop does nothing at all. -/
lemma processUrls_all_seen (seen : List String) (fetch : String → UrlFetch)
    (nok : Nat → Bool) :
    ∀ (urls : List String) (st : CycleState),
      (∀ u ∈ urls, ∃ ps, fetch u = .ok ps ∧ ∀ p ∈ ps, p.key ∈ seen) →
      processUrls seen fetch nok urls st = .ok st := by
  intro urls
  induction urls with
  | nil => intro st _; rfl
  | cons url rest ih =>
    intro st hall
    obtain ⟨ps, hf, hkeys⟩ := hall url (List.mem_cons_self url rest)
    have hfil : ps.filter (fun r => decide (r.key ∉ seen)) = [] := by
      simp only [List.filter_eq_nil_iff]
      intro r hr
      simp [hkeys r hr]
    simp only [processUrls, hf]
    rw [hfil]
    simpa using ih st (fun u hu => hall u (List.mem_cons_of_mem _ hu))

/-- What loadSeen returns is duplicate-free (it models a Python set). -/
lemma loadSeen_nodup (parse : String → Option (List String)) (file : Option String)
    (seen : List String) (h : loadSeen parse file = .ok seen) : seen.Nodup := by
  cases file with
  | none =>
    cases h
    exact List.nodup_nil
  | some s =>
    simp only [loadSeen] at h
    cases hp : parse s with
    | none => rw [hp] at h; cases h
    | some l =>
      rw [hp] at h
      cases h
      exact List.nodup_dedup l

/-! ### Partial-failure isolation: claim C4 -/

/-- Claim C4: when the fetch of the first URL ends in a terminal timeout and
the sink accepts every message, exactly one warning naming that URL is
sent, the remaining URLs are processed exactly as they would be on
their own, and the commit still happens, once, after all of them. -/
theorem c4_partial_failure (parse : String → Option (List String)) (file : Option String)
    (seen : List String) (hload : loadSeen parse file = .ok seen)
    (u1 : String) (rest : List String) (fetch : String → UrlFetch)
    (h1 : fetch u1 = .timeout) (_hrest : rest ≠ []) (hnotin : u1 ∉ rest)
    (herr : ∀ u ∈ rest, fetch u ≠ .err) :
    ∃ st2, processUrls seen fetch (fun _ => true) rest ⟨[], seen, 0⟩ = .ok st2
      ∧ check_once parse file (u1 :: rest) fetch (fun _ => true)
          = .ok ⟨.warn u1 :: st2.sent, sortStr st2.newSeen⟩
      ∧ (Msg.warn u1 :: st2.sent).count (.warn u1) = 1 := by
  obtain ⟨st2, hok⟩ := processUrls_allOk_isOk seen fetch rest ⟨[], seen, 0⟩ herr
  refine ⟨st2, hok, ?_, ?_⟩
  · simp only [check_once, hload, processUrls, h1, eq_self_iff_true, if_true]
    rw [processUrls_allOk_shift seen fetch rest seen ([] ++ [Msg.warn u1]) (0 + 1), hok]
    simp [Except.map]
  · have hnw : Msg.warn u1 ∉ st2.sent := by
      intro hin
      rcases processUrls_warn_mem seen fetch (fun _ => true) rest _ _ hok u1 hin with h | h
      · simp at h
      · exact hnotin h
    rw [List.count_cons]
    simp [List.count_eq_zero.mpr hnw]

/-- Witness for C4: first URL times out, second still fetches, diffs
and notifies, and the commit happens with the product of the second URL. -/
theorem c4_partial_failure_witness :
    ∃ st2, processUrls [] (fun u => if u = "u1" then .timeout else .ok [⟨"a|1", "a", "1", "x", "t"⟩])
        (fun _ => true) ["u2"] ⟨[], [], 0⟩ = .ok st2
      ∧ check_once jparse none ["u1", "u2"]
          (fun u => if u = "u1" then .timeout else .ok [⟨"a|1", "a", "1", "x", "t"⟩])
          (fun _ => true)
          = .ok ⟨.warn "u1" :: st2.sent, sortStr st2.newSeen⟩
      ∧ (Msg.warn "u1" :: st2.sent).count (.warn "u1") = 1 :=
  c4_partial_failure jparse none [] rfl "u1" ["u2"]
    (fun u => if u = "u1" then .timeout else .ok [⟨"a|1", "a", "1", "x", "t"⟩])
    (by decide) (by decide) (by decide) (by decide)

/-! ### Commit is the union of snapshot and notified keys: claim C10 -/

/-- Claim C10: the committed fingerprint list of a completed cycle is,
as a set, the loaded snapshot united with the fingerprints carried by
the batched notifications of that cycle; in particular it contains every
loaded fingerprint — nothing is ever removed. -/
theorem c10_commit_union (parse : String → Option (List String)) (file : Option String)
    (urls : List String) (fetch : String → UrlFetch) (nok : Nat → Bool)
    (seen : List String) (out : CycleOut)
    (hload : loadSeen parse file = .ok seen)
    (h : check_once parse file urls fetch nok = .ok out) :
    out.saved.toFinset = seen.toFinset ∪ (notifiedKeys out.sent).toFinset
    ∧ ∀ x ∈ seen, x ∈ out.saved := by
  simp only [check_once, hload] at h
  cases hp : processUrls seen fetch nok urls ⟨[], seen, 0⟩ with
  | error e => rw [hp] at h; cases h
  | ok st =>
    rw [hp] at h
    obtain rfl : (⟨st.sent, sortStr st.newSeen⟩ : CycleOut) = out := by injection h
    obtain ⟨tail, hs, hns⟩ := processUrls_newSeen seen fetch nok urls _ _ hp
    simp only at hs hns
    have hmem : ∀ x, x ∈ sortStr st.newSeen ↔ x ∈ seen ∨ x ∈ notifiedKeys st.sent := by
      intro x
      rw [mem_sortStr, hns, mem_foldl_addKey, hs]
      simp
    constructor
    · apply Finset.ext
      intro x
      simp only [List.mem_toFinset, Finset.mem_union, hmem x]
    · intro x hx
      exact (hmem x).mpr (Or.inl hx)

/-- Witness for C10 at a concrete one-URL first-run cycle. -/
theorem c10_commit_union_witness :
    (["a|1"] : List String).toFinset
      = ([] : List String).toFinset
        ∪ (notifiedKeys [.batch "u" [⟨"a|1", "a", "1", "x", "t"⟩]]).toFinset
    ∧ ∀ x ∈ ([] : List String), x ∈ (["a|1"] : List String) :=
  c10_commit_union jparse none ["u"] (fun _ => .ok [⟨"a|1", "a", "1", "x", "t"⟩])
    (fun _ => true) [] ⟨[.batch "u" [⟨"a|1", "a", "1", "x", "t"⟩]], ["a|1"]⟩ rfl rfl

/-! ### Idempotence of a repeated cycle: claim C8 -/

/-- Claim C8: a second cycle run on the state committed by a first run,
with unchanged source data (every URL fetching the same product lists,
successfully), sends no notification at all and commits exactly the
same fingerprint list. -/
theorem c8_idempotent (parse : String → Option (List String))
    (dumps : List String → String) (file : Option String) (urls : List String)
    (fetch : String → UrlFetch) (out1 : CycleOut)
    (h1 : check_once parse file urls fetch (fun _ => true) = .ok out1)
    (hok : ∀ u ∈ urls, ∃ ps, fetch u = .ok ps)
    (hrt : parse (dumps out1.saved) = some out1.saved) :
    check_once parse (some (dumps out1.saved)) urls fetch (fun _ => true)
      = .ok ⟨[], out1.saved⟩ := by
  cases hl : loadSeen parse file with
  | error e =>
    simp only [check_once, hl] at h1
    exact Except.noConfusion h1
  | ok seen =>
    simp only [check_once, hl] at h1
    cases hp : processUrls seen fetch (fun _ => true) urls ⟨[], seen, 0⟩ with
    | error e => rw [hp] at h1; cases h1
    | ok st =>
      rw [hp] at h1
      obtain rfl : (⟨st.sent, sortStr st.newSeen⟩ : CycleOut) = out1 := by injection h1
      have hnodup : (sortStr st.newSeen).Nodup := by
        obtain ⟨tail, _, hns⟩ := processUrls_newSeen seen fetch (fun _ => true) urls _ _ hp
        simp only at hns
        have : st.newSeen.Nodup := by
          rw [hns]
          exact nodup_foldl_addKey _ _ (loadSeen_nodup parse file seen hl)
        exact ((perm_sortStr st.newSeen).nodup_iff).mpr this
      have hload2 : loadSeen parse (some (dumps (sortStr st.newSeen)))
          = .ok (sortStr st.newSeen) := by
        simp only [loadSeen, hrt]
        rw [List.dedup_eq_self.mpr hnodup]
      have hkeys : ∀ u ∈ urls, ∃ ps, fetch u = .ok ps
          ∧ ∀ p ∈ ps, p.key ∈ sortStr st.newSeen := by
        intro u hu
        obtain ⟨ps, hf⟩ := hok u hu
        refine ⟨ps, hf, fun p hp2 => ?_⟩
        rw [mem_sortStr]
        exact processUrls_keys_mem seen fetch (fun _ => true) urls _ _ hp
          (fun x hx => hx) u hu ps hf p hp2
      simp only [check_once, hload2]
      rw [processUrls_all_seen (sortStr st.newSeen) fetch (fun _ => true) urls
        ⟨[], sortStr st.newSeen, 0⟩ hkeys]
      simp [sortStr_idem]

/-- Witness for C8: a one-URL first run commits one fingerprint; the
identical second run sends nothing and commits the same list. -/
theorem c8_idempotent_witness :
    check_once jparse (some (jdumps ["a|1"])) ["u"]
      (fun _ => .ok [⟨"a|1", "a", "1", "x", "t"⟩]) (fun _ => true)
      = .ok ⟨[], ["a|1"]⟩ :=
  c8_idempotent jparse jdumps none ["u"] (fun _ => .ok [⟨"a|1", "a", "1", "x", "t"⟩])
    ⟨[.batch "u" [⟨"a|1", "a", "1", "x", "t"⟩]], ["a|1"]⟩ rfl
    (fun _ _ => ⟨[⟨"a|1", "a", "1", "x", "t"⟩], rfl⟩) rfl


/-! ### The text normalizer: claim C9 -/

/-- Checker: true when the character list has no two consecutive
spaces. -/
def noDoubleSpace : List Char → Bool
  | a :: b :: rest => !(a == ' ' && b == ' ') && noDoubleSpace (b :: rest)
  | _ => true

lemma noDouble_iff_chain :
    ∀ l, noDoubleSpace l = true ↔ List.Chain' (fun a b => ¬(a = ' ' ∧ b = ' ')) l := by
  intro l
  induction l with
  | nil => simp [noDoubleSpace]
  | cons a t ih =>
    cases t with
    | nil => simp [noDoubleSpace]
    | cons b rest =>
      constructor
      · intro h
        simp only [noDoubleSpace, Bool.and_eq_true, Bool.not_eq_true'] at h
        rw [List.chain'_cons]
        refine ⟨?_, ih.mp h.2⟩
        rintro ⟨rfl, rfl⟩
        simp at h
      · intro h
        rw [List.chain'_cons] at h
        simp only [noDoubleSpace, Bool.and_eq_true, Bool.not_eq_true']
        refine ⟨?_, ih.mpr h.2⟩
        by_cases ha : a = ' '
        · by_cases hb : b = ' '
          · exact absurd ⟨ha, hb⟩ h.1
          · simp [hb]
        · simp [ha]

/-- Whitespace survives collapse only as the single space. -/
lemma collapse_mem_ws : ∀ (l : List Char) (b : Bool) (c : Char),
    c ∈ collapse b l → pySpace c = true → c = ' ' := by
  intro l
  induction l with
  | nil => intro b c hc; simp [collapse] at hc
  | cons x xs ih =>
    intro b c hc hws
    by_cases hx : pySpace x = true
    · simp only [collapse] at hc
      rw [if_pos hx] at hc
      cases b with
      | true => exact ih true c hc hws
      | false =>
        rcases List.mem_cons.mp hc with rfl | hc
        · rfl
        · exact ih true c hc hws
    · simp only [collapse] at hc
      rw [if_neg hx] at hc
      rcases List.mem_cons.mp hc with rfl | hc
      · exact absurd hws hx
      · exact ih false c hc hws

/-- After a replaced whitespace run the next emitted character is not
whitespace. -/
lemma collapse_true_head : ∀ (l : List Char) (a : Char),
    (collapse true l).head? = some a → pySpace a = false := by
  intro l
  induction l with
  | nil => intro a h; simp [collapse] at h
  | cons x xs ih =>
    intro a h
    by_cases hx : pySpace x = true
    · simp only [collapse] at h
      rw [if_pos hx] at h
      exact ih a h
    · simp only [collapse] at h
      rw [if_neg hx] at h
      simp only [List.head?_cons, Option.some_inj] at h
      rw [← h]
      simpa using hx

/-- The collapse output never holds two adjacent whitespace
characters. -/
lemma collapse_chain : ∀ (l : List Char) (b : Bool),
    List.Chain' (fun x y => ¬(pySpace x = true ∧ pySpace y = true)) (collapse b l) := by
  intro l
  induction l with
  | nil => intro b; simp [collapse]
  | cons x xs ih =>
    intro b
    by_cases hx : pySpace x = true
    · simp only [collapse]
      rw [if_pos hx]
      cases b with
      | true => exact ih true
      | false =>
        rw [if_neg (by simp)]
        rw [List.chain'_cons']
        refine ⟨?_, ih true⟩
        intro y hy
        have hyf : pySpace y = false :=
          collapse_true_head xs y (Option.mem_def.mp hy)
        rintro ⟨_, hy2⟩
        rw [hyf] at hy2
        cases hy2
    · simp only [collapse]
      rw [if_neg hx]
      rw [List.chain'_cons']
      refine ⟨?_, ih false⟩
      intro y _
      rintro ⟨hx2, _⟩
      exact hx hx2

/-- stripChars removes a prefix and a suffix: the result is an infix. -/
lemma stripChars_contained (l : List Char) : stripChars l <:+: l := by
  have h1 : l.dropWhile pySpace <:+ l := List.dropWhile_suffix pySpace
  have h3 : stripChars l <+: l.dropWhile pySpace := by
    rw [stripChars, ← List.reverse_suffix]
    simpa using List.dropWhile_suffix (l := (l.dropWhile pySpace).reverse) pySpace
  exact List.IsInfix.trans (List.IsPrefix.isInfix h3) (List.IsSuffix.isInfix h1)

lemma head?_dropWhile_false (p : Char → Bool) :
    ∀ (l : List Char) (a : Char), (l.dropWhile p).head? = some a → p a = false := by
  intro l
  induction l with
  | nil => intro a h; simp at h
  | cons c cs ih =>
    intro a h
    by_cases hc : p c = true
    · rw [List.dropWhile_cons_of_pos hc] at h
      exact ih a h
    · rw [List.dropWhile_cons_of_neg (by simp [hc])] at h
      simp only [List.head?_cons, Option.some_inj] at h
      rw [← h]
      simpa using hc

lemma prefix_head? {l1 l2 : List Char} {a : Char} (h : l1 <+: l2)
    (ha : l1.head? = some a) : l2.head? = some a := by
  rcases h with ⟨t, rfl⟩
  cases l1 with
  | nil => simp at ha
  | cons c cs => simpa using ha

/-- The head of the normalized string is never whitespace. -/
lemma fmt_head_not_space (s : String) (a : Char) :
    (fmt s).data.head? = some a → pySpace a = false := by
  intro h
  have hpre : stripChars (collapse false s.data) <+:
      (collapse false s.data).dropWhile pySpace := by
    rw [stripChars, ← List.reverse_suffix]
    simpa using List.dropWhile_suffix
      (l := ((collapse false s.data).dropWhile pySpace).reverse) pySpace
  exact head?_dropWhile_false pySpace _ a (prefix_head? hpre h)

/-- The last character of the normalized string is never whitespace. -/
lemma fmt_last_not_space (s : String) (a : Char) :
    (fmt s).data.getLast? = some a → pySpace a = false := by
  intro h
  have he : (fmt s).data.getLast?
      = (((collapse false s.data).dropWhile pySpace).reverse.dropWhile pySpace).head? := by
    show (stripChars (collapse false s.data)).getLast? = _
    rw [stripChars, List.getLast?_reverse]
  rw [he] at h
  exact head?_dropWhile_false pySpace _ a h

/-- The normalized string has no two adjacent whitespace characters. -/
lemma fmt_chain (s : String) :
    List.Chain' (fun x y => ¬(pySpace x = true ∧ pySpace y = true)) (fmt s).data :=
  List.Chain'.infix (collapse_chain s.data false)
    (stripChars_contained (collapse false s.data))

/-- collapse is the identity on lists whose whitespace consists of
single interior spaces. -/
lemma collapse_eq_self : ∀ l : List Char,
    (∀ c ∈ l, pySpace c = true → c = ' ') →
    List.Chain' (fun x y => ¬(pySpace x = true ∧ pySpace y = true)) l →
    collapse false l = l
    ∧ ((∀ a, l.head? = some a → pySpace a = false) → collapse true l = l) := by
  intro l
  induction l with
  | nil => intro _ _; exact ⟨rfl, fun _ => rfl⟩
  | cons c cs ih =>
    intro hws hch
    rw [List.chain'_cons'] at hch
    obtain ⟨hhead, hch2⟩ := hch
    have ihcs := ih (fun x hx => hws x (List.mem_cons_of_mem _ hx)) hch2
    have hfalse : collapse false (c :: cs) = c :: cs := by
      by_cases hc : pySpace c = true
      · have hc2 : c = ' ' := hws c (List.mem_cons_self _ _) hc
        simp only [collapse]
        rw [if_pos hc]
        have htrue : collapse true cs = cs := by
          apply ihcs.2
          intro a ha
          cases h2 : pySpace a with
          | false => rfl
          | true => exact absurd ⟨hc, h2⟩ (hhead a (Option.mem_def.mpr ha))
        rw [htrue, hc2]
        simp
      · simp only [collapse]
        rw [if_neg hc, ihcs.1]
    refine ⟨hfalse, ?_⟩
    intro hstart
    have hc : pySpace c = false := hstart c rfl
    simp only [collapse]
    rw [if_neg (by simp [hc]), ihcs.1]

lemma dropWhile_eq_self_of_head (p : Char → Bool) (l : List Char)
    (h : ∀ a, l.head? = some a → p a = false) : l.dropWhile p = l := by
  cases l with
  | nil => rfl
  | cons c cs => exact List.dropWhile_cons_of_neg (by simp [h c rfl])

/-- fmt is idempotent. -/
lemma fmt_idem (s : String) : fmt (fmt s) = fmt s := by
  have hmem : ∀ c ∈ (fmt s).data, pySpace c = true → c = ' ' := by
    intro c hc
    exact collapse_mem_ws s.data false c
      (List.Sublist.subset (List.IsInfix.sublist (stripChars_contained (collapse false s.data))) hc)
  have hcol : collapse false (fmt s).data = (fmt s).data :=
    (collapse_eq_self (fmt s).data hmem (fmt_chain s)).1
  have hdrop1 : (fmt s).data.dropWhile pySpace = (fmt s).data :=
    dropWhile_eq_self_of_head pySpace _ (fun a ha => fmt_head_not_space s a ha)
  have hdrop2 : (fmt s).data.reverse.dropWhile pySpace = (fmt s).data.reverse :=
    dropWhile_eq_self_of_head pySpace _
      (fun a ha => fmt_last_not_space s a (by rw [← List.head?_reverse]; exact ha))
  show (⟨stripChars (collapse false (fmt s).data)⟩ : String) = fmt s
  rw [hcol]
  show (⟨((((fmt s).data.dropWhile pySpace).reverse.dropWhile pySpace)).reverse⟩ : String)
    = fmt s
  rw [hdrop1, hdrop2, List.reverse_reverse]

/-- Claim C9: fmt collapses every whitespace run (newlines and tabs
included) to one space and trims, so its output has no two consecutive
spaces and no leading or trailing space; fmt is a total function and is
idempotent; and on the spec example, fmt "a\n\tb  c" is "a b c". -/
theorem c9_normalize :
    (∀ s : String, noDoubleSpace (fmt s).data = true)
    ∧ (∀ s : String, ((fmt s).data.head? == some ' ') = false)
    ∧ (∀ s : String, ((fmt s).data.getLast? == some ' ') = false)
    ∧ (∀ s : String, fmt (fmt s) = fmt s)
    ∧ fmt "a\n\tb  c" = "a b c" := by
  refine ⟨?_, ?_, ?_, fmt_idem, by rfl⟩
  · intro s
    refine (noDouble_iff_chain (fmt s).data).mpr ((fmt_chain s).imp ?_)
    intro a b hR hS
    rcases hS with ⟨rfl, rfl⟩
    exact hR ⟨rfl, rfl⟩
  · intro s
    cases h : (fmt s).data.head? with
    | none => rfl
    | some a =>
      have hws : pySpace a = false := fmt_head_not_space s a h
      have hne : a ≠ ' ' := by
        intro heq
        rw [heq] at hws
        cases hws
      simp [hne]
  · intro s
    cases h : (fmt s).data.getLast? with
    | none => rfl
    | some a =>
      have hws : pySpace a = false := fmt_last_not_space s a h
      have hne : a ≠ ' ' := by
        intro heq
        rw [heq] at hws
        cases hws
      simp [hne]

end BsMonitor
